import Mathlib

/-!
Verification of the ANFIS + PSO training program (anfis_diabetes_main.py).

The numpy code is shallowly embedded over exact real arithmetic:
* 1-D numpy arrays become `List ℝ` (or `List ℕ` for index arrays),
* 2-D arrays of the swarm become functions `Fin nPop → Fin nVar → ℝ`,
* float division follows the Lean convention `x / 0 = 0` (the code never
  relies on inf/nan propagation in the properties proved here),
* every `np.random` draw becomes an explicit oracle argument, so that a
  "fixed RNG realisation" is simply a fixed oracle.
-/

open scoped Classical

/-! Numerically stable log-sigmoid (source: `logsig`) -/

/-- Embedding of `logsig`: the piecewise numerically stable log-sigmoid,
with the source's breakpoints -33.3, -18.0, 37.0. -/
noncomputable def logsig (z : ℝ) : ℝ :=
  if z < -33.3 then z
  else if z < -18.0 then z - Real.exp z
  else if z < 37.0 then -Real.log (1 + Real.exp (-z))
  else -Real.exp (-z)

/-! numpy round-half-to-even (used by the PSO integer handling) -/

/-- Embedding of `np.round` on scalars: round half to even. -/
noncomputable def nround (x : ℝ) : ℝ :=
  if Int.fract x = 1 / 2 then ((2 * round (x / 2) : ℤ) : ℝ)
  else ((round x : ℤ) : ℝ)

/-! Class matrix (source: `build_class_matrix`)

`np.unique` returns the sorted list of distinct labels; the one-hot row of
sample `i` has a 1 exactly at the column of its label. Labels are data
(class ids), embedded as `ℚ` so the sort is executable. -/

def insertSorted (x : ℚ) : List ℚ → List ℚ
  | [] => [x]
  | y :: ys => if x ≤ y then x :: y :: ys else y :: insertSorted x ys

def sortQ (l : List ℚ) : List ℚ := l.foldr insertSorted []

/-- Embedding of `np.unique(Y)`: the sorted list of distinct labels. -/
def uniqueSorted (Y : List ℚ) : List ℚ := sortQ Y.dedup

/-- Embedding of `build_class_matrix`: entry `(i, j)` of `Yout`
(1 iff sample `i` carries the `j`-th smallest distinct label). -/
def class_matrix (Y : List ℚ) (i j : ℕ) : ℝ :=
  if Y.getD i 0 = (uniqueSorted Y).getD j 0 then 1 else 0

/-! ANFIS layout (source: `ANFIS.__init__`, `info_anfis`) -/

def n_pf (n_mf : List ℕ) : ℕ := n_mf.sum

def n_cf (n_mf : List ℕ) : ℕ := n_mf.prod

def n_var (n_mf : List ℕ) (n_outputs : ℕ) : ℕ :=
  3 * n_pf n_mf + (n_mf.length + 1) * n_cf n_mf * n_outputs

/-! Rule combinations (source: `ANFIS.build_combs`)

The source stores `combs` as an `(n_inputs, n_cf)` matrix; we keep the list
of its `n_cf` columns (each column is the list of one premise-MF index per
input), which is the same data. `prodLists` is `itertools.product`:
the leftmost factor varies slowest, matching the source's column order. -/

def prodLists : List (List ℕ) → List (List ℕ)
  | [] => [[]]
  | l :: ls => l.flatMap (fun x => (prodLists ls).map (fun c => x :: c))

/-- The per-input index ranges `[start, start + m)` obtained from the
cumulative sums of `n_mf` (source lines 172-176). -/
def mf_ranges : List ℕ → ℕ → List (List ℕ)
  | [], _ => []
  | m :: rest, start => List.range' start m :: mf_ranges rest (start + m)

/-- Embedding of `ANFIS.build_combs`: the list of rule columns. -/
def build_combs (n_mf : List ℕ) : List (List ℕ) := prodLists (mf_ranges n_mf 0)

/-! Input expansion (source: `ANFIS.expand_input_dataset`), one sample -/

/-- Embedding of one row of `expand_input_dataset`: feature `i` is
replicated `n_mf[i]` times, consecutively. -/
def expand_input (n_mf : List ℕ) (x : List ℝ) : List ℝ :=
  (List.zipWith (fun m v => List.replicate m v) n_mf x).flatten

/-! Parameter binding (source: `ANFIS.build_param`) -/

structure ANFISParams where
  mu : List ℝ
  s : List ℝ
  c : List ℝ
  Aflat : List ℝ

/-- Entry `(r, j)` of the consequent matrix `A`, stored C-contiguously with
`ncols = n_cf * n_outputs` columns (the `reshape` of the source). -/
def Aval (p : ANFISParams) (ncols r j : ℕ) : ℝ := p.Aflat.getD (r * ncols + j) 0

/-- Embedding of `ANFIS.build_param`. numpy slices `theta[a:b]` truncate
silently when `theta` is short (`List.drop/take`); the `reshape` of the
consequent block raises iff the sliced block does not hold exactly
`(n_inputs+1) * n_cf * n_outputs` entries — `none` models that error. -/
def build_param (n_mf : List ℕ) (n_outputs : ℕ) (theta : List ℝ) :
    Option ANFISParams :=
  let i1 := n_pf n_mf
  let i3 := 3 * i1
  let i4 := n_var n_mf n_outputs
  let Af := (theta.drop i3).take (i4 - i3)
  if Af.length = (n_mf.length + 1) * (n_cf n_mf * n_outputs) then
    some ⟨theta.take i1, (theta.drop i1).take i1, (theta.drop (2 * i1)).take i1, Af⟩
  else none

/-! Forward pass (source: `ANFIS.forward_steps`), one sample at a time.
The numpy code processes the whole `(n_samples, …)` arrays at once, but
every layer acts row-wise, so the embedding maps the per-sample pipeline
over the sample list. -/

/-- Layer 1, the scaled distance `d = (Xe - mu) / s` at premise index `k`. -/
noncomputable def premise_d (p : ANFISParams) (xe : List ℝ) (k : ℕ) : ℝ :=
  (xe.getD k 0 - p.mu.getD k 0) / p.s.getD k 0

/-- Layer 1, the generalized-Bell membership `pf = 1 / (1 + (d*d) ** c)`;
the exponent is a real (`Real.rpow`), applied to the square `d*d`. -/
noncomputable def premise_pf (p : ANFISParams) (xe : List ℝ) (k : ℕ) : ℝ :=
  1 / (1 + (premise_d p xe k * premise_d p xe k) ^ p.c.getD k 0)

/-- Layer 2: the firing strength of each rule, the product of the premise
memberships selected by the rule's column of `combs`. -/
noncomputable def fire_W (n_mf : List ℕ) (p : ANFISParams) (xe : List ℝ) :
    List ℝ :=
  (build_combs n_mf).map (fun col => (col.map (premise_pf p xe)).prod)

/-- Layer 3: normalized firing strengths `Wr = W / sum(W)`. -/
noncomputable def fire_Wr (n_mf : List ℕ) (p : ANFISParams) (xe : List ℝ) :
    List ℝ :=
  (fire_W n_mf p xe).map (fun w => w / (fire_W n_mf p xe).sum)

/-- Layers 4 and 5 for output channel `k`:
`f_k = Σ_j Wr_j * (X1 · A[:, k*n_cf + j])` with `X1 = [1, x]`. -/
noncomputable def forward_one (n_mf : List ℕ) (n_outputs : ℕ) (p : ANFISParams)
    (x : List ℝ) (k : ℕ) : ℝ :=
  let xe := expand_input n_mf x
  let Wr := fire_Wr n_mf p xe
  let x1 := 1 :: x
  ((List.range (n_cf n_mf)).map (fun j =>
    Wr.getD j 0 *
      ((List.range (n_mf.length + 1)).map (fun r =>
        x1.getD r 0 * Aval p (n_cf n_mf * n_outputs) r (k * n_cf n_mf + j))).sum)).sum

/-! Cost (source: `ANFIS.create_model`, classification branch) -/

/-- Embedding of `ANFIS.create_model` for `problem = 'C'`:
`J = sum((1 - Yout) * f - logsig(f)) / n_samples`, where the sum ranges over
every entry of the `(n_samples, n_classes)` error matrix but the divisor is
the number of samples only. `none` models the `build_param` reshape error. -/
noncomputable def create_model_C (n_mf : List ℕ) (n_outputs : ℕ)
    (theta : List ℝ) (X : List (List ℝ)) (Y : List ℚ) : Option ℝ :=
  (build_param n_mf n_outputs theta).map (fun p =>
    let ncl := (uniqueSorted Y).length
    (((List.range X.length).map (fun i =>
      ((List.range ncl).map (fun j =>
        (1 - class_matrix Y i j) * forward_one n_mf n_outputs p (X.getD i []) j -
          logsig (forward_one n_mf n_outputs p (X.getD i []) j))).sum)).sum) /
      (X.length : ℝ))

/-- Modelled from the spec: the cost as the *mean of the error matrix*,
i.e. the same entry sum divided by `n_samples * n_classes`
(spec: "cost J = mean( (1 − Yout)·f − logsig(f) )"). To be compared with
`create_model_C`, whose divisor is the sample count only. -/
noncomputable def create_model_C_mean_spec (n_mf : List ℕ) (n_outputs : ℕ)
    (theta : List ℝ) (X : List (List ℝ)) (Y : List ℚ) : Option ℝ :=
  (build_param n_mf n_outputs theta).map (fun p =>
    let ncl := (uniqueSorted Y).length
    (((List.range X.length).map (fun i =>
      ((List.range ncl).map (fun j =>
        (1 - class_matrix Y i j) * forward_one n_mf n_outputs p (X.getD i []) j -
          logsig (forward_one n_mf n_outputs p (X.getD i []) j))).sum)).sum) /
      ((X.length : ℝ) * (ncl : ℝ)))

/-! PSO (source: `PSO`, `group_best`, `hypersphere_point`,
`random_back_conf`, `hyperbolic_conf`, `mixed_conf`)

The swarm holds `nP + 1` particles (`np.argmin` needs a nonempty array)
over `nV` variables. Every `np.random` draw of the loop body is an explicit
oracle field, so one `EpochRand` value is one realisation of the epoch's
randomness. -/

inductive ConfType | RB | HY | MX

structure PSOConfig (nP nV : ℕ) where
  func : (Fin (nP + 1) → Fin nV → ℝ) → Fin (nP + 1) → ℝ
  LB : Fin nV → ℝ
  UB : Fin nV → ℝ
  K : ℕ
  phi : ℝ
  vel_fact : ℝ
  conf_type : ConfType
  intVar : Fin nV → Bool
  normalize : Bool

structure PSOState (nP nV : ℕ) where
  agent_pos : Fin (nP + 1) → Fin nV → ℝ
  agent_vel : Fin (nP + 1) → Fin nV → ℝ
  agent_best_pos : Fin (nP + 1) → Fin nV → ℝ
  agent_best_cost : Fin (nP + 1) → ℝ
  swarm_best_pos : Fin nV → ℝ
  swarm_best_cost : ℝ
  swarm_best_idx : Fin (nP + 1)
  informants : Fin (nP + 1) → Fin (nP + 1) → Bool
  group_best_pos : Fin (nP + 1) → Fin nV → ℝ
  p_equal_g : Fin (nP + 1) → ℝ

/-- Randomness consumed by `pso_init` (lines 605, 610, 638): uniform draws
for positions and velocities, and the informant adjacency draws. -/
structure InitRand (nP nV : ℕ) where
  posr : Fin (nP + 1) → Fin nV → ℝ
  velr : Fin (nP + 1) → Fin nV → ℝ
  infr : Fin (nP + 1) → Fin (nP + 1) → ℝ

/-- Randomness consumed by one epoch: the Gaussian direction `u` and the
uniform radius fraction `t` of `hypersphere_point` (`r = t * r_max` models
`np.random.uniform(0, r_max)`), the `random_back_conf` draws `rb`, the
`mixed_conf` coin `gamma`, and the informant re-draws `infr`. -/
structure EpochRand (nP nV : ℕ) where
  u : Fin (nP + 1) → Fin nV → ℝ
  t : Fin (nP + 1) → ℝ
  rb : Fin (nP + 1) → Fin nV → ℝ
  gamma : Fin (nP + 1) → Fin nV → ℝ
  infr : Fin (nP + 1) → Fin (nP + 1) → ℝ

/-- Effective lower bound inside the optimizer: the `normalize` branch
(line 590) replaces `LB` by zeros. -/
def effLB {nP nV : ℕ} (cfg : PSOConfig nP nV) : Fin nV → ℝ :=
  if cfg.normalize then fun _ => 0 else cfg.LB

/-- Effective upper bound inside the optimizer (ones when normalized). -/
def effUB {nP nV : ℕ} (cfg : PSOConfig nP nV) : Fin nV → ℝ :=
  if cfg.normalize then fun _ => 1 else cfg.UB

/-- The velocity limit `vel_max = vel_fact * (UB - LB)` (line 576). Note the
source computes this from the ORIGINAL bounds, before the `normalize`
reassignment. -/
def vel_max {nP nV : ℕ} (cfg : PSOConfig nP nV) (v : Fin nV) : ℝ :=
  cfg.vel_fact * (cfg.UB v - cfg.LB v)

/-- Constriction coefficient `w = 1 / (phi - 1 + sqrt(phi^2 - 2 phi))`. -/
noncomputable def wCoef {nP nV : ℕ} (cfg : PSOConfig nP nV) : ℝ :=
  1 / (cfg.phi - 1 + Real.sqrt (cfg.phi ^ 2 - 2 * cfg.phi))

/-- The confidence coefficient `cmax = w * phi`. -/
noncomputable def cmax {nP nV : ℕ} (cfg : PSOConfig nP nV) : ℝ :=
  wCoef cfg * cfg.phi

/-- The informant probability `p_informant = 1 - (1 - 1/nPop)^K`. -/
noncomputable def p_informant {nP nV : ℕ} (cfg : PSOConfig nP nV) : ℝ :=
  1 - (1 - 1 / ((nP : ℝ) + 1)) ^ cfg.K

/-- Positions handed to the objective: de-normalized when `normalize` is
set (lines 615, 689), the raw positions otherwise. -/
def evalPos {nP nV : ℕ} (cfg : PSOConfig nP nV)
    (pos : Fin (nP + 1) → Fin nV → ℝ) : Fin (nP + 1) → Fin nV → ℝ :=
  if cfg.normalize then fun p v => cfg.LB v + pos p v * (cfg.UB v - cfg.LB v)
  else pos

/-- Velocity clamp `np.fmin(np.fmax(x, vel_min), vel_max)` (lines 611, 653). -/
def clampV {nP nV : ℕ} (cfg : PSOConfig nP nV) (x : ℝ) (v : Fin nV) : ℝ :=
  min (max x (-(vel_max cfg v))) (vel_max cfg v)

/-- First-occurrence `np.argmin`: scan the indices in order, replacing the
current best only on a strict decrease. -/
noncomputable def argminAux {n : ℕ} (f : Fin n → ℝ) : List (Fin n) → Fin n → Fin n
  | [], b => b
  | i :: rest, b => argminAux f rest (if f i < f b then i else b)

noncomputable def argminF {n : ℕ} (f : Fin (n + 1) → ℝ) : Fin (n + 1) :=
  argminAux f (List.finRange (n + 1)) 0

/-- First-occurrence `np.argmin` over `np.where(mask, cost, np.inf)`
(line 756-760): an unmasked entry (`np.inf`) never beats any entry, and a
masked entry beats every unmasked one. -/
noncomputable def argminMaskedAux {n : ℕ} (mask : Fin n → Bool) (f : Fin n → ℝ) :
    List (Fin n) → Fin n → Fin n
  | [], b => b
  | i :: rest, b =>
      argminMaskedAux mask f rest
        (if mask i ∧ (¬ mask b ∨ f i < f b) then i else b)

noncomputable def argminMasked {n : ℕ} (mask : Fin (n + 1) → Bool) (f : Fin (n + 1) → ℝ) :
    Fin (n + 1) :=
  argminMaskedAux mask f (List.finRange (n + 1)) 0

/-- Embedding of `group_best`: row `p`'s group best is the personal best of
the first informant of `p` with minimal personal-best cost; the correction
factor is 0.75 where an agent is its own group best. -/
noncomputable def groupBest {nP nV : ℕ} (informants : Fin (nP + 1) → Fin (nP + 1) → Bool)
    (abp : Fin (nP + 1) → Fin nV → ℝ) (abc : Fin (nP + 1) → ℝ) :
    (Fin (nP + 1) → Fin nV → ℝ) × (Fin (nP + 1) → ℝ) :=
  let idx := fun p => argminMasked (informants p) abc
  (fun p => abp (idx p), fun p => if p = idx p then 0.75 else 1.0)

/-- Fresh informant adjacency (lines 638-639, 714-716): edge draws below
`p_informant`, with a forced self-loop. -/
noncomputable def sampleInformants {nP nV : ℕ} (cfg : PSOConfig nP nV)
    (draw : Fin (nP + 1) → Fin (nP + 1) → ℝ) :
    Fin (nP + 1) → Fin (nP + 1) → Bool :=
  fun i j => if i = j then true
             else if draw i j < p_informant cfg then true else false

/-- Embedding of the PSO initialization (lines 575-641). -/
noncomputable def pso_init {nP nV : ℕ} (cfg : PSOConfig nP nV)
    (r : InitRand nP nV) : PSOState nP nV :=
  let pos0raw := fun p v =>
    effLB cfg v + r.posr p v * (effUB cfg v - effLB cfg v)
  let pos0 := fun p v =>
    if cfg.intVar v then nround (pos0raw p v) else pos0raw p v
  let vel0 := fun p v =>
    clampV cfg ((effLB cfg v - pos0 p v) + r.velr p v * (effUB cfg v - effLB cfg v)) v
  let cost0 := cfg.func (evalPos cfg pos0)
  let idx := argminF cost0
  let informants0 := sampleInformants cfg r.infr
  let gb :=
    if cfg.K = 0 then
      (fun _ => pos0 idx, fun p => if p = idx then 0.75 else 1.0)
    else groupBest informants0 pos0 cost0
  { agent_pos := pos0
    agent_vel := vel0
    agent_best_pos := pos0
    agent_best_cost := cost0
    swarm_best_pos := pos0 idx
    swarm_best_cost := cost0 idx
    swarm_best_idx := idx
    informants := informants0
    group_best_pos := gb.1
    p_equal_g := gb.2 }

/-- Gravity point `Gr` (lines 647-648). -/
noncomputable def psoGr {nP nV : ℕ} (cfg : PSOConfig nP nV)
    (s : PSOState nP nV) : Fin (nP + 1) → Fin nV → ℝ :=
  fun p v =>
    s.agent_pos p v + (1 / 3) * cmax cfg *
      (s.agent_best_pos p v + s.group_best_pos p v - 2 * s.agent_pos p v) *
      s.p_equal_g p

/-- Embedding of `hypersphere_point`: direction `u / |u|`, radius
`t * r_max` with `r_max = |Gr - pos|` (Euclidean row norms). -/
noncomputable def psoXsphere {nP nV : ℕ} (cfg : PSOConfig nP nV)
    (s : PSOState nP nV) (r : EpochRand nP nV) : Fin (nP + 1) → Fin nV → ℝ :=
  fun p v =>
    let rmax := Real.sqrt (Finset.univ.sum fun w =>
      (psoGr cfg s p w - s.agent_pos p w) ^ 2)
    let nrm := Real.sqrt (Finset.univ.sum fun w => r.u p w ^ 2)
    r.u p v * (r.t p * rmax / nrm)

/-- The clamped updated velocity (lines 650-653):
`v' = clamp(w*v + Gr + x_sphere - pos)`. -/
noncomputable def psoVel2 {nP nV : ℕ} (cfg : PSOConfig nP nV)
    (s : PSOState nP nV) (r : EpochRand nP nV) : Fin (nP + 1) → Fin nV → ℝ :=
  fun p v =>
    clampV cfg
      (wCoef cfg * s.agent_vel p v + psoGr cfg s p v + psoXsphere cfg s r p v -
        s.agent_pos p v) v

/-- The tentative position `pos + v'`, with integer dimensions rounded
(lines 657-659). -/
noncomputable def psoTmpPos {nP nV : ℕ} (cfg : PSOConfig nP nV)
    (s : PSOState nP nV) (r : EpochRand nP nV) : Fin (nP + 1) → Fin nV → ℝ :=
  fun p v =>
    if cfg.intVar v then nround (s.agent_pos p v + psoVel2 cfg s r p v)
    else s.agent_pos p v + psoVel2 cfg s r p v

/-- The out-of-bounds flag (line 660): the tentative position fails the
strict test `LB < pos < UB`. -/
noncomputable def psoOut {nP nV : ℕ} (cfg : PSOConfig nP nV)
    (s : PSOState nP nV) (r : EpochRand nP nV) (p : Fin (nP + 1)) (v : Fin nV) :
    Prop :=
  ¬ (effLB cfg v < psoTmpPos cfg s r p v ∧ psoTmpPos cfg s r p v < effUB cfg v)

/-- Embedding of `hyperbolic_conf` on the clamped velocity: the `v > 0`
branch divides by `1 + |v/(UB - pos)|`, the other by `1 + |v/(pos - LB)|`. -/
noncomputable def psoHyperConf {nP nV : ℕ} (cfg : PSOConfig nP nV)
    (s : PSOState nP nV) (r : EpochRand nP nV) (p : Fin (nP + 1)) (v : Fin nV) :
    ℝ :=
  if 0 < psoVel2 cfg s r p v then
    psoVel2 cfg s r p v /
      (1 + |psoVel2 cfg s r p v / (effUB cfg v - s.agent_pos p v)|)
  else
    psoVel2 cfg s r p v /
      (1 + |psoVel2 cfg s r p v / (s.agent_pos p v - effLB cfg v)|)

/-- Embedding of `random_back_conf`: `-U(0,1) * v`. -/
noncomputable def psoRandBackConf {nP nV : ℕ} (cfg : PSOConfig nP nV)
    (s : PSOState nP nV) (r : EpochRand nP nV) (p : Fin (nP + 1)) (v : Fin nV) :
    ℝ :=
  -(r.rb p v) * psoVel2 cfg s r p v

/-- The confinement velocity of the configured strategy; `mixed_conf`
takes the hyperbolic branch where `gamma >= 0.5`. -/
noncomputable def psoVelConf {nP nV : ℕ} (cfg : PSOConfig nP nV)
    (s : PSOState nP nV) (r : EpochRand nP nV) (p : Fin (nP + 1)) (v : Fin nV) :
    ℝ :=
  match cfg.conf_type with
  | ConfType.RB => psoRandBackConf cfg s r p v
  | ConfType.HY => psoHyperConf cfg s r p v
  | ConfType.MX =>
      if 0.5 ≤ r.gamma p v then psoHyperConf cfg s r p v
      else psoRandBackConf cfg s r p v

/-- The epoch's final velocity (line 674): the confinement velocity on the
flagged dimensions, the clamped velocity elsewhere. -/
noncomputable def psoVelNew {nP nV : ℕ} (cfg : PSOConfig nP nV)
    (s : PSOState nP nV) (r : EpochRand nP nV) (p : Fin (nP + 1)) (v : Fin nV) :
    ℝ :=
  if psoOut cfg s r p v then psoVelConf cfg s r p v else psoVel2 cfg s r p v

/-- The moved position (lines 675-677): `pos + vel`, rounded on integer
dimensions. -/
noncomputable def psoPosMoved {nP nV : ℕ} (cfg : PSOConfig nP nV)
    (s : PSOState nP nV) (r : EpochRand nP nV) (p : Fin (nP + 1)) (v : Fin nV) :
    ℝ :=
  if cfg.intVar v then nround (s.agent_pos p v + psoVelNew cfg s r p v)
  else s.agent_pos p v + psoVelNew cfg s r p v

/-- The hard position clip to `[LB, UB]` (line 680). -/
noncomputable def psoPosClipped {nP nV : ℕ} (cfg : PSOConfig nP nV)
    (s : PSOState nP nV) (r : EpochRand nP nV) (p : Fin (nP + 1)) (v : Fin nV) :
    ℝ :=
  min (max (psoPosMoved cfg s r p v) (effLB cfg v)) (effUB cfg v)

/-- The epoch's final position (lines 675-685): move, round integer
dimensions, hard-clip to `[LB, UB]`, then re-clip integer dimensions to
`[ceil LB, floor UB]` (lines 681-685). -/
noncomputable def psoPosNew {nP nV : ℕ} (cfg : PSOConfig nP nV)
    (s : PSOState nP nV) (r : EpochRand nP nV) (p : Fin (nP + 1)) (v : Fin nV) :
    ℝ :=
  if cfg.intVar v then
    min (max (psoPosClipped cfg s r p v) ((⌈effLB cfg v⌉ : ℤ) : ℝ))
      ((⌊effUB cfg v⌋ : ℤ) : ℝ)
  else psoPosClipped cfg s r p v

/-- The epoch's cost vector (lines 687-692): the objective on the final
(possibly de-normalized) positions. -/
noncomputable def psoCost {nP nV : ℕ} (cfg : PSOConfig nP nV)
    (s : PSOState nP nV) (r : EpochRand nP nV) : Fin (nP + 1) → ℝ :=
  cfg.func (evalPos cfg (fun p v => psoPosNew cfg s r p v))

/-- Updated personal-best positions (lines 695-696). -/
noncomputable def psoAbp {nP nV : ℕ} (cfg : PSOConfig nP nV)
    (s : PSOState nP nV) (r : EpochRand nP nV) :
    Fin (nP + 1) → Fin nV → ℝ :=
  fun p =>
    if psoCost cfg s r p < s.agent_best_cost p then
      (fun v => psoPosNew cfg s r p v)
    else s.agent_best_pos p

/-- Updated personal-best costs (lines 695, 697). -/
noncomputable def psoAbc {nP nV : ℕ} (cfg : PSOConfig nP nV)
    (s : PSOState nP nV) (r : EpochRand nP nV) : Fin (nP + 1) → ℝ :=
  fun p =>
    if psoCost cfg s r p < s.agent_best_cost p then psoCost cfg s r p
    else s.agent_best_cost p

/-- The arg-min over the updated personal-best costs (line 700). -/
noncomputable def psoIdx {nP nV : ℕ} (cfg : PSOConfig nP nV)
    (s : PSOState nP nV) (r : EpochRand nP nV) : Fin (nP + 1) :=
  argminF (psoAbc cfg s r)

/-- Whether the epoch improves the swarm best (line 701). -/
def psoImproved {nP nV : ℕ} (cfg : PSOConfig nP nV)
    (s : PSOState nP nV) (r : EpochRand nP nV) : Prop :=
  psoAbc cfg s r (psoIdx cfg s r) < s.swarm_best_cost

/-- Embedding of one iteration of the main loop (lines 644-725). -/
noncomputable def pso_epoch {nP nV : ℕ} (cfg : PSOConfig nP nV)
    (s : PSOState nP nV) (r : EpochRand nP nV) : PSOState nP nV :=
  let informants1 :=
    if psoImproved cfg s r then s.informants
    else if cfg.K = 0 then s.informants
    else sampleInformants cfg r.infr
  let sbp :=
    if psoImproved cfg s r then psoAbp cfg s r (psoIdx cfg s r)
    else s.swarm_best_pos
  let gb :=
    if cfg.K = 0 then (fun _ => sbp, s.p_equal_g)
    else groupBest informants1 (psoAbp cfg s r) (psoAbc cfg s r)
  { agent_pos := fun p v => psoPosNew cfg s r p v
    agent_vel := fun p v => psoVelNew cfg s r p v
    agent_best_pos := psoAbp cfg s r
    agent_best_cost := psoAbc cfg s r
    swarm_best_pos := sbp
    swarm_best_cost :=
      if psoImproved cfg s r then psoAbc cfg s r (psoIdx cfg s r)
      else s.swarm_best_cost
    swarm_best_idx :=
      if psoImproved cfg s r then psoIdx cfg s r else s.swarm_best_idx
    informants := informants1
    group_best_pos := gb.1
    p_equal_g := gb.2 }

/-- The whole run: state after `n` epochs, from the initialization, with
the epoch-indexed randomness stream `er`. -/
noncomputable def pso_run {nP nV : ℕ} (cfg : PSOConfig nP nV)
    (ir : InitRand nP nV) (er : ℕ → EpochRand nP nV) : ℕ → PSOState nP nV
  | 0 => pso_init cfg ir
  | n + 1 => pso_epoch cfg (pso_run cfg ir er n) (er n)

/-! Combinatorial facts about `build_combs` -/

/-- A valid rule column: one premise-MF index per input, the index of input
`i` lying in that input's block `[offset_i, offset_i + n_mf_i)` where
`offset_i` is the cumulative sum of the earlier MF counts. -/
def validComb (n_mf : List ℕ) (col : List ℕ) : Prop :=
  col.length = n_mf.length ∧
  ∀ i, i < n_mf.length →
    (n_mf.take i).sum ≤ col.getD i 0 ∧
    col.getD i 0 < (n_mf.take i).sum + n_mf.getD i 0

theorem prodLists_length (ls : List (List ℕ)) :
    (prodLists ls).length = (ls.map List.length).prod := by
  induction ls with
  | nil => rfl
  | cons l ls ih =>
      simp only [prodLists, List.length_flatMap, List.length_map, List.map_map,
        Function.comp_def, ih, List.map_cons, List.prod_cons]
      rw [List.map_const', List.sum_replicate, smul_eq_mul]

theorem mem_prodLists {ls : List (List ℕ)} {c : List ℕ} :
    c ∈ prodLists ls ↔ List.Forall₂ (fun x l => x ∈ l) c ls := by
  induction ls generalizing c with
  | nil =>
      simp only [prodLists, List.mem_singleton, List.forall₂_nil_right_iff]
  | cons l ls ih =>
      simp only [prodLists, List.mem_flatMap, List.mem_map]
      constructor
      · rintro ⟨x, hx, d, hd, rfl⟩
        exact List.Forall₂.cons hx (ih.mp hd)
      · intro h
        cases h with
        | cons hx hd => exact ⟨_, hx, _, ih.mpr hd, rfl⟩

theorem prodLists_nodup {ls : List (List ℕ)} (h : ∀ l ∈ ls, l.Nodup) :
    (prodLists ls).Nodup := by
  induction ls with
  | nil => simp [prodLists]
  | cons l ls ih =>
      have hl : l.Nodup := h l (List.mem_cons_self l ls)
      have hrest := ih (fun l' hl' => h l' (List.mem_cons_of_mem _ hl'))
      simp only [prodLists]
      rw [List.nodup_flatMap]
      refine ⟨fun x _ => hrest.map (fun a b hab => ?_), ?_⟩
      · exact (List.cons.injEq x a x b).mp hab |>.2
      · refine hl.imp (fun hab => ?_)
        intro c hca hcb
        rcases List.mem_map.mp hca with ⟨d, _, rfl⟩
        rcases List.mem_map.mp hcb with ⟨e, _, he⟩
        exact hab ((List.cons.injEq _ _ _ _).mp he).1.symm

theorem mf_ranges_map_length (ms : List ℕ) (s : ℕ) :
    (mf_ranges ms s).map List.length = ms := by
  induction ms generalizing s with
  | nil => rfl
  | cons m ms ih => simp [mf_ranges, ih]

theorem mf_ranges_nodup (ms : List ℕ) (s : ℕ) :
    ∀ l ∈ mf_ranges ms s, l.Nodup := by
  induction ms generalizing s with
  | nil => simp [mf_ranges]
  | cons m ms ih =>
      intro l hl
      rcases List.mem_cons.mp hl with rfl | hl
      · exact List.nodup_range' _ _ _ Nat.one_pos
      · exact ih (s + m) l hl

theorem forall2_mf_ranges (ms : List ℕ) (s : ℕ) (col : List ℕ) :
    List.Forall₂ (fun x l => x ∈ l) col (mf_ranges ms s) ↔
      (col.length = ms.length ∧ ∀ i, i < ms.length →
        s + (ms.take i).sum ≤ col.getD i 0 ∧
        col.getD i 0 < s + (ms.take i).sum + ms.getD i 0) := by
  induction ms generalizing s col with
  | nil =>
      simp only [mf_ranges, List.forall₂_nil_right_iff, List.length_nil]
      constructor
      · rintro rfl
        exact ⟨rfl, fun i hi => absurd hi (Nat.not_lt_zero i)⟩
      · rintro ⟨h, _⟩
        exact List.length_eq_zero.mp h
  | cons m ms ih =>
      cases col with
      | nil =>
          simp only [mf_ranges, List.length_nil, List.length_cons]
          constructor
          · intro h; cases h
          · rintro ⟨h, _⟩; omega
      | cons x xs =>
          rw [mf_ranges, List.forall₂_cons, ih (s + m) xs]
          constructor
          · rintro ⟨hx, hlen, hrest⟩
            rcases List.mem_range'_1.mp hx with ⟨hx1, hx2⟩
            refine ⟨by simpa using hlen, ?_⟩
            intro i hi
            cases i with
            | zero =>
                simp only [List.take_zero, List.sum_nil, Nat.add_zero,
                  List.getD_cons_zero]
                exact ⟨hx1, hx2⟩
            | succ i =>
                have h1 := hrest i (by simpa using hi)
                rw [List.take_succ_cons, List.sum_cons, List.getD_cons_succ,
                  List.getD_cons_succ]
                omega
          · rintro ⟨hlen, hall⟩
            have h0 := hall 0 (by simp)
            simp only [List.take_zero, List.sum_nil, Nat.add_zero,
              List.getD_cons_zero] at h0
            refine ⟨List.mem_range'_1.mpr ⟨h0.1, h0.2⟩, by simpa using hlen, ?_⟩
            intro i hi
            have h1 := hall (i + 1) (by simp; omega)
            rw [List.take_succ_cons, List.sum_cons, List.getD_cons_succ,
              List.getD_cons_succ] at h1
            omega

/-- C2: `build_combs` yields `prod(n_mf)` rule columns, each a valid
combination of exactly one (cumulatively offset) premise-MF index per
input; every valid combination appears exactly once (no duplicates), and on
`n_mf = [3, 2]` the columns are exactly the Cartesian product
`{0,1,2} × {3,4}` in the source's order. -/
theorem C2_build_combs_correct (n_mf : List ℕ) :
    (build_combs n_mf).length = n_cf n_mf ∧
    (∀ col, col ∈ build_combs n_mf ↔ validComb n_mf col) ∧
    (build_combs n_mf).Nodup ∧
    build_combs [3, 2] = [[0, 3], [0, 4], [1, 3], [1, 4], [2, 3], [2, 4]] := by
  refine ⟨?_, ?_, ?_, by rfl⟩
  · rw [build_combs, prodLists_length, mf_ranges_map_length]; rfl
  · intro col
    rw [build_combs, mem_prodLists, forall2_mf_ranges, validComb]
    simp
  · exact prodLists_nodup (mf_ranges_nodup n_mf 0)

/-- Witness for C2: the column `[1, 4]` is a valid combination for
`n_mf = [3, 2]` and, by the theorem, occurs among the rule columns. -/
theorem C2_build_combs_correct_witness :
    validComb [3, 2] [1, 4] ∧ [1, 4] ∈ build_combs [3, 2] := by
  have hv : validComb [3, 2] [1, 4] := by
    refine ⟨rfl, ?_⟩
    intro i hi
    have hi2 : i < 2 := by simpa using hi
    interval_cases i <;> simp [List.getD]
  exact ⟨hv, ((C2_build_combs_correct [3, 2]).2.1 [1, 4]).mpr hv⟩

/-! C1: the layer-3 normalization sums to one -/

theorem list_sum_map_div (l : List ℝ) (s : ℝ) :
    (l.map (fun x => x / s)).sum = l.sum / s := by
  induction l with
  | nil => simp
  | cons x xs ih => simp [ih, add_div]

/-- C1: for every parameter vector `theta` accepted by `build_param` and
every (expanded) input sample whose rule firing strengths have a strictly
positive sum, the normalized firing strengths of layer 3 sum to exactly 1. -/
theorem C1_normalized_firing_sums_to_one (n_mf : List ℕ) (n_outputs : ℕ)
    (theta : List ℝ) (p : ANFISParams) (xe : List ℝ)
    (hp : build_param n_mf n_outputs theta = some p)
    (hW : 0 < (fire_W n_mf p xe).sum) :
    (fire_Wr n_mf p xe).sum = 1 := by
  rw [fire_Wr, list_sum_map_div]
  exact div_self (ne_of_gt hW)

/-- Parameters bound from `theta = [0, 1, 1, 0, 0]` for the layout
`n_mf = [1]`, one output. -/
def paramsC1 : ANFISParams := ⟨[0], [1], [1], [0, 0]⟩

/-- Witness for C1 at `n_mf = [1]`, `theta = [0, 1, 1, 0, 0]`, sample
`xe = [0]`: the firing-strength sum is 1 > 0 and the normalized firing
strengths sum to 1. -/
theorem C1_normalized_firing_sums_to_one_witness :
    build_param [1] 1 [0, 1, 1, 0, 0] = some paramsC1 ∧
    0 < (fire_W [1] paramsC1 [0]).sum ∧
    (fire_Wr [1] paramsC1 [0]).sum = 1 := by
  have hp : build_param [1] 1 [0, 1, 1, 0, 0] = some paramsC1 := by rfl
  have hW : fire_W [1] paramsC1 [0] = [1] := by
    simp [fire_W, build_combs, mf_ranges, prodLists, premise_pf, premise_d,
      paramsC1, List.range', Real.rpow_one]
  have hpos : 0 < (fire_W [1] paramsC1 [0]).sum := by
    rw [hW]; norm_num
  exact ⟨hp, hpos,
    C1_normalized_firing_sums_to_one [1] 1 [0, 1, 1, 0, 0] paramsC1 [0] hp hpos⟩

/-! C8: premise memberships lie in (0, 1] -/

/-- C8: for any premise parameters with nonzero spread `s`, any real
exponent `c` (negative and non-integer included) and any input value, the
generalized-Bell membership `pf = 1 / (1 + (d*d) ** c)` lies in `(0, 1]`. -/
theorem C8_premise_pf_mem_Ioc (p : ANFISParams) (xe : List ℝ) (k : ℕ)
    (hs : p.s.getD k 0 ≠ 0) :
    premise_pf p xe k ∈ Set.Ioc (0 : ℝ) 1 := by
  rw [premise_pf]
  have h0 : (0 : ℝ) ≤ premise_d p xe k * premise_d p xe k :=
    mul_self_nonneg _
  have h1 : (0 : ℝ) ≤
      (premise_d p xe k * premise_d p xe k) ^ p.c.getD k 0 :=
    Real.rpow_nonneg h0 _
  have hden : (1 : ℝ) ≤
      1 + (premise_d p xe k * premise_d p xe k) ^ p.c.getD k 0 := by linarith
  constructor
  · exact div_pos one_pos (by linarith)
  · rw [div_le_one (by linarith)]
    exact hden

/-- Witness for C8 at `mu = 0`, `s = 1`, `c = 2`, input `3`. -/
theorem C8_premise_pf_mem_Ioc_witness :
    (ANFISParams.s ⟨[0], [1], [2], []⟩).getD 0 0 ≠ 0 ∧
    premise_pf ⟨[0], [1], [2], []⟩ [3] 0 ∈ Set.Ioc (0 : ℝ) 1 := by
  have hs : (ANFISParams.s ⟨[0], [1], [2], []⟩).getD 0 0 ≠ 0 := by
    norm_num
  exact ⟨hs, C8_premise_pf_mem_Ioc ⟨[0], [1], [2], []⟩ [3] 0 hs⟩

/-! C4: the swarm-best cost never increases -/

theorem pso_epoch_swarm_best_cost {nP nV : ℕ} (cfg : PSOConfig nP nV)
    (s : PSOState nP nV) (r : EpochRand nP nV) :
    (pso_epoch cfg s r).swarm_best_cost =
      if psoImproved cfg s r then psoAbc cfg s r (psoIdx cfg s r)
      else s.swarm_best_cost := rfl

theorem pso_epoch_swarm_best_le {nP nV : ℕ} (cfg : PSOConfig nP nV)
    (s : PSOState nP nV) (r : EpochRand nP nV) :
    (pso_epoch cfg s r).swarm_best_cost ≤ s.swarm_best_cost := by
  rw [pso_epoch_swarm_best_cost]
  by_cases hc : psoImproved cfg s r
  · rw [if_pos hc]
    exact le_of_lt hc
  · rw [if_neg hc]

/-- C4: for every configuration (any population size, epoch budget,
informant parameter `K`, bounds, confinement type, integer set,
normalization flag) and every fixed realisation of the random draws, the
swarm-best cost after epoch `n + 1` is at most the swarm-best cost after
epoch `n`, throughout the whole run. -/
theorem C4_swarm_best_monotone {nP nV : ℕ} (cfg : PSOConfig nP nV)
    (ir : InitRand nP nV) (er : ℕ → EpochRand nP nV) (n : ℕ) :
    (pso_run cfg ir er (n + 1)).swarm_best_cost ≤
      (pso_run cfg ir er n).swarm_best_cost :=
  pso_epoch_swarm_best_le cfg (pso_run cfg ir er n) (er n)

/-! C10: velocities stay within the limits, confinement included -/

theorem abs_clampV_le {nP nV : ℕ} (cfg : PSOConfig nP nV) (x : ℝ) (v : Fin nV)
    (h : 0 ≤ vel_max cfg v) : |clampV cfg x v| ≤ vel_max cfg v := by
  rw [clampV, abs_le]
  constructor
  · apply le_min
    · exact le_max_right _ _
    · linarith
  · exact min_le_right _ _

theorem abs_psoVel2_le {nP nV : ℕ} (cfg : PSOConfig nP nV)
    (s : PSOState nP nV) (r : EpochRand nP nV) (p : Fin (nP + 1)) (v : Fin nV)
    (h : 0 ≤ vel_max cfg v) : |psoVel2 cfg s r p v| ≤ vel_max cfg v :=
  abs_clampV_le cfg _ v h

theorem abs_div_one_add_abs_le (x y : ℝ) : |x / (1 + |y|)| ≤ |x| := by
  have h1 : (1 : ℝ) ≤ 1 + |y| := le_add_of_nonneg_right (abs_nonneg y)
  rw [abs_div, abs_of_pos (lt_of_lt_of_le one_pos h1)]
  exact div_le_self (abs_nonneg x) h1

theorem abs_psoHyperConf_le {nP nV : ℕ} (cfg : PSOConfig nP nV)
    (s : PSOState nP nV) (r : EpochRand nP nV) (p : Fin (nP + 1)) (v : Fin nV) :
    |psoHyperConf cfg s r p v| ≤ |psoVel2 cfg s r p v| := by
  rw [psoHyperConf]
  split
  · exact abs_div_one_add_abs_le _ _
  · exact abs_div_one_add_abs_le _ _

theorem abs_psoRandBackConf_le {nP nV : ℕ} (cfg : PSOConfig nP nV)
    (s : PSOState nP nV) (r : EpochRand nP nV) (p : Fin (nP + 1)) (v : Fin nV)
    (h0 : 0 ≤ r.rb p v) (h1 : r.rb p v ≤ 1) :
    |psoRandBackConf cfg s r p v| ≤ |psoVel2 cfg s r p v| := by
  rw [psoRandBackConf, neg_mul, abs_neg, abs_mul, abs_of_nonneg h0]
  exact mul_le_of_le_one_left (abs_nonneg _) h1

/-- C10: at every epoch, after the velocity clamp and the per-dimension
confinement substitution (random-back, hyperbolic, or their mix), every
component of every particle's velocity still lies within
`[-vel_max, vel_max]`, even though no re-clamp follows the substitution —
assuming `vel_max` is nonnegative and the random-back draws lie in `[0, 1]`
(as `np.random.rand` guarantees). -/
theorem C10_velocity_within_limits {nP nV : ℕ} (cfg : PSOConfig nP nV)
    (s : PSOState nP nV) (r : EpochRand nP nV)
    (hvm : ∀ v, 0 ≤ vel_max cfg v)
    (hrb : ∀ p v, 0 ≤ r.rb p v ∧ r.rb p v ≤ 1) :
    ∀ p v, |(pso_epoch cfg s r).agent_vel p v| ≤ vel_max cfg v := by
  intro p v
  have h2 : |psoVel2 cfg s r p v| ≤ vel_max cfg v :=
    abs_psoVel2_le cfg s r p v (hvm v)
  have hagent : (pso_epoch cfg s r).agent_vel p v = psoVelNew cfg s r p v := rfl
  rw [hagent, psoVelNew]
  split
  · rw [psoVelConf]
    split
    · exact le_trans
        (abs_psoRandBackConf_le cfg s r p v (hrb p v).1 (hrb p v).2) h2
    · exact le_trans (abs_psoHyperConf_le cfg s r p v) h2
    · split
      · exact le_trans (abs_psoHyperConf_le cfg s r p v) h2
      · exact le_trans
          (abs_psoRandBackConf_le cfg s r p v (hrb p v).1 (hrb p v).2) h2
  · exact h2

/-! C7 (amended): positions stay in bounds after a full epoch,
provided every integer dimension's range contains an integer -/

/-- C7 (amended): after one full epoch (velocity update, confinement,
position clipping, integer re-clip), every component of every particle's
position lies in `[LB, UB]`, provided `LB ≤ UB` component-wise and every
integer-constrained dimension satisfies `⌈LB⌉ ≤ ⌊UB⌋` (its range contains
an integer). Without the latter assumption the integer re-clip can leave
the box, see the counterexample. -/
theorem C7_position_in_bounds {nP nV : ℕ} (cfg : PSOConfig nP nV)
    (s : PSOState nP nV) (r : EpochRand nP nV)
    (hb : ∀ v, effLB cfg v ≤ effUB cfg v)
    (hint : ∀ v, cfg.intVar v = true → ⌈effLB cfg v⌉ ≤ ⌊effUB cfg v⌋) :
    ∀ p v, effLB cfg v ≤ (pso_epoch cfg s r).agent_pos p v ∧
      (pso_epoch cfg s r).agent_pos p v ≤ effUB cfg v := by
  intro p v
  have h : (pso_epoch cfg s r).agent_pos p v = psoPosNew cfg s r p v := rfl
  have hcl : effLB cfg v ≤ psoPosClipped cfg s r p v ∧
      psoPosClipped cfg s r p v ≤ effUB cfg v := by
    rw [psoPosClipped]
    exact ⟨le_min (le_max_right _ _) (hb v), min_le_right _ _⟩
  rw [h, psoPosNew]
  by_cases hiv : cfg.intVar v = true
  · rw [if_pos hiv]
    have hc : ((⌈effLB cfg v⌉ : ℤ) : ℝ) ≤ ((⌊effUB cfg v⌋ : ℤ) : ℝ) := by
      exact_mod_cast hint v hiv
    constructor
    · exact le_min (le_trans (Int.le_ceil _) (le_max_right _ _))
        (le_trans (Int.le_ceil _) hc)
    · exact le_trans (min_le_right _ _) (Int.floor_le _)
  · rw [if_neg hiv]
    exact hcl

/-! Concrete swarm objects for the PSO witnesses -/

/-- A concrete 1-particle, 1-variable configuration: bounds `[0, 1]`,
`vel_fact = 1/2`, random-back confinement, no integer variables. -/
noncomputable def cfgW : PSOConfig 0 1 :=
  { func := fun _ _ => 0
    LB := fun _ => 0
    UB := fun _ => 1
    K := 0
    phi := 41 / 20
    vel_fact := 1 / 2
    conf_type := ConfType.RB
    intVar := fun _ => false
    normalize := false }

/-- A concrete swarm state (everything at zero). -/
def stW : PSOState 0 1 :=
  { agent_pos := fun _ _ => 0
    agent_vel := fun _ _ => 0
    agent_best_pos := fun _ _ => 0
    agent_best_cost := fun _ => 0
    swarm_best_pos := fun _ => 0
    swarm_best_cost := 0
    swarm_best_idx := 0
    informants := fun _ _ => true
    group_best_pos := fun _ _ => 0
    p_equal_g := fun _ => 1 }

/-- A concrete epoch-randomness realisation (all draws zero). -/
def erW : EpochRand 0 1 :=
  { u := fun _ _ => 0
    t := fun _ => 0
    rb := fun _ _ => 0
    gamma := fun _ _ => 0
    infr := fun _ _ => 0 }

/-- Witness for C7 (amended) at the concrete configuration `cfgW`. -/
theorem C7_position_in_bounds_witness :
    (∀ v, effLB cfgW v ≤ effUB cfgW v) ∧
    (∀ v, cfgW.intVar v = true → ⌈effLB cfgW v⌉ ≤ ⌊effUB cfgW v⌋) ∧
    (∀ p v, effLB cfgW v ≤ (pso_epoch cfgW stW erW).agent_pos p v ∧
      (pso_epoch cfgW stW erW).agent_pos p v ≤ effUB cfgW v) := by
  have hb : ∀ v, effLB cfgW v ≤ effUB cfgW v := by
    intro v
    simp [effLB, effUB, cfgW]
  have hint : ∀ v, cfgW.intVar v = true → ⌈effLB cfgW v⌉ ≤ ⌊effUB cfgW v⌋ := by
    intro v hv
    simp [cfgW] at hv
  exact ⟨hb, hint, C7_position_in_bounds cfgW stW erW hb hint⟩

/-- Witness for C10 at the concrete configuration `cfgW`. -/
theorem C10_velocity_within_limits_witness :
    (∀ v, 0 ≤ vel_max cfgW v) ∧
    (∀ p v, 0 ≤ erW.rb p v ∧ erW.rb p v ≤ 1) ∧
    (∀ p v, |(pso_epoch cfgW stW erW).agent_vel p v| ≤ vel_max cfgW v) := by
  have hvm : ∀ v, 0 ≤ vel_max cfgW v := by
    intro v
    simp [vel_max, cfgW]
  have hrb : ∀ p v, 0 ≤ erW.rb p v ∧ erW.rb p v ≤ 1 := by
    intro p v
    simp [erW]
  exact ⟨hvm, hrb, C10_velocity_within_limits cfgW stW erW hvm hrb⟩

/-! C7 counterexample: an integer dimension whose range holds no
integer is clipped outside `[LB, UB]` -/

theorem nround_eq (x : ℝ) (n : ℤ) (h1 : (n : ℝ) - 1 / 2 < x)
    (h2 : x < (n : ℝ) + 1 / 2) : nround x = (n : ℝ) := by
  have hfr : Int.fract x ≠ 1 / 2 := by
    intro h
    have hx : x = (⌊x⌋ : ℝ) + 1 / 2 := by
      have hf := Int.fract_add_floor x
      linarith
    have h5 : n - 1 < ⌊x⌋ := by
      have : (n : ℝ) - 1 < (⌊x⌋ : ℝ) := by linarith
      exact_mod_cast this
    have h6 : ⌊x⌋ < n := by
      have : ((⌊x⌋ : ℝ)) < n := by linarith
      exact_mod_cast this
    omega
  rw [nround, if_neg hfr, round_eq]
  have hfl : ⌊x + 1 / 2⌋ = n := by
    rw [Int.floor_eq_iff]
    constructor
    · linarith
    · push_cast
      linarith
  rw [hfl]

/-- The degenerate configuration: one particle, one variable declared
integer, bounds `[1.2, 1.8]` (which contain no integer). -/
noncomputable def cfgC7 : PSOConfig 0 1 :=
  { func := fun _ _ => 0
    LB := fun _ => 6 / 5
    UB := fun _ => 9 / 5
    K := 0
    phi := 41 / 20
    vel_fact := 1 / 2
    conf_type := ConfType.RB
    intVar := fun _ => true
    normalize := false }

def irC7 : InitRand 0 1 :=
  { posr := fun _ _ => 0
    velr := fun _ _ => 0
    infr := fun _ _ => 0 }

def erC7 : EpochRand 0 1 :=
  { u := fun _ _ => 1
    t := fun _ => 0
    rb := fun _ _ => 0
    gamma := fun _ _ => 0
    infr := fun _ _ => 0 }

theorem ce7_effLB (v : Fin 1) : effLB cfgC7 v = 6 / 5 := by
  simp [effLB, cfgC7]

theorem ce7_effUB (v : Fin 1) : effUB cfgC7 v = 9 / 5 := by
  simp [effUB, cfgC7]

theorem ce7_velmax (v : Fin 1) : vel_max cfgC7 v = 3 / 10 := by
  simp [vel_max, cfgC7]
  norm_num

theorem ce7_w_pos : 0 < wCoef cfgC7 := by
  rw [wCoef]
  have hs := Real.sqrt_nonneg (cfgC7.phi ^ 2 - 2 * cfgC7.phi)
  have hphi : cfgC7.phi = 41 / 20 := rfl
  rw [hphi] at hs ⊢
  apply div_pos one_pos
  linarith

theorem ce7_w_lt_one : wCoef cfgC7 < 1 := by
  rw [wCoef]
  have hs := Real.sqrt_nonneg (cfgC7.phi ^ 2 - 2 * cfgC7.phi)
  have hphi : cfgC7.phi = 41 / 20 := rfl
  rw [hphi] at hs ⊢
  rw [div_lt_one (by linarith)]
  linarith

theorem ce7_init_pos : (pso_init cfgC7 irC7).agent_pos = fun _ _ => 1 := by
  funext p v
  show (if cfgC7.intVar v then
    nround (effLB cfgC7 v + irC7.posr p v * (effUB cfgC7 v - effLB cfgC7 v))
  else effLB cfgC7 v + irC7.posr p v * (effUB cfgC7 v - effLB cfgC7 v)) = 1
  have hiv : cfgC7.intVar v = true := rfl
  rw [if_pos hiv, ce7_effLB, ce7_effUB]
  have h0 : irC7.posr p v = 0 := rfl
  rw [h0]
  have := nround_eq (6 / 5 + 0 * (9 / 5 - 6 / 5) : ℝ) 1 (by norm_num)
    (by norm_num)
  simpa using this

theorem ce7_init_vel : (pso_init cfgC7 irC7).agent_vel = fun _ _ => 1 / 5 := by
  funext p v
  show clampV cfgC7
    ((effLB cfgC7 v - (pso_init cfgC7 irC7).agent_pos p v) +
      irC7.velr p v * (effUB cfgC7 v - effLB cfgC7 v)) v = 1 / 5
  rw [ce7_init_pos, ce7_effLB, ce7_effUB]
  have h0 : irC7.velr p v = 0 := rfl
  rw [h0, clampV, ce7_velmax]
  norm_num

theorem ce7_init_abc : (pso_init cfgC7 irC7).agent_best_cost = fun _ => 0 :=
  rfl

theorem ce7_init_abp : (pso_init cfgC7 irC7).agent_best_pos = fun _ _ => 1 :=
  ce7_init_pos

theorem ce7_init_gbp :
    (pso_init cfgC7 irC7).group_best_pos = fun _ _ => 1 := by
  funext q v
  show (pso_init cfgC7 irC7).agent_pos
    (argminF ((pso_init cfgC7 irC7).agent_best_cost)) v = 1
  rw [ce7_init_pos]

theorem ce7_init_peg :
    (pso_init cfgC7 irC7).p_equal_g = fun _ => 0.75 := by
  funext q
  show (if q = argminF ((pso_init cfgC7 irC7).agent_best_cost) then (0.75 : ℝ)
    else 1.0) = 0.75
  rw [if_pos (Fin.ext (by omega))]

theorem ce7_Gr : psoGr cfgC7 (pso_init cfgC7 irC7) = fun _ _ => 1 := by
  funext p v
  rw [psoGr]
  simp only [ce7_init_pos, ce7_init_abp, ce7_init_gbp, ce7_init_peg]
  ring

theorem ce7_xs :
    psoXsphere cfgC7 (pso_init cfgC7 irC7) erC7 = fun _ _ => 0 := by
  funext p v
  rw [psoXsphere]
  have h0 : erC7.t p = 0 := rfl
  simp [h0]

theorem ce7_vel2 :
    psoVel2 cfgC7 (pso_init cfgC7 irC7) erC7 = fun _ _ => wCoef cfgC7 / 5 := by
  funext p v
  rw [psoVel2]
  simp only [ce7_Gr, ce7_xs, ce7_init_vel, ce7_init_pos]
  have hx : wCoef cfgC7 * (1 / 5) + 1 + 0 - 1 = wCoef cfgC7 / 5 := by ring
  rw [hx, clampV, ce7_velmax]
  have hw0 := ce7_w_pos
  have hw1 := ce7_w_lt_one
  rw [max_eq_left (by linarith), min_eq_left (by linarith)]

theorem ce7_tmp :
    psoTmpPos cfgC7 (pso_init cfgC7 irC7) erC7 = fun _ _ => 1 := by
  funext p v
  have hiv : cfgC7.intVar v = true := rfl
  rw [psoTmpPos, if_pos hiv]
  simp only [ce7_init_pos, ce7_vel2]
  have hw0 := ce7_w_pos
  have hw1 := ce7_w_lt_one
  have h := nround_eq (1 + wCoef cfgC7 / 5) 1 (by push_cast; linarith)
    (by push_cast; linarith)
  simpa using h

theorem ce7_out : ∀ (p v : Fin 1),
    psoOut cfgC7 (pso_init cfgC7 irC7) erC7 p v := by
  intro p v
  rw [psoOut, ce7_tmp]
  rintro ⟨h1, -⟩
  rw [ce7_effLB] at h1
  norm_num at h1

theorem ce7_velnew :
    psoVelNew cfgC7 (pso_init cfgC7 irC7) erC7 = fun _ _ => 0 := by
  funext p v
  rw [psoVelNew, if_pos (ce7_out p v)]
  show psoRandBackConf cfgC7 (pso_init cfgC7 irC7) erC7 p v = 0
  rw [psoRandBackConf]
  have h0 : erC7.rb p v = 0 := rfl
  rw [h0]
  ring

theorem ce7_posnew : ∀ (p v : Fin 1),
    psoPosNew cfgC7 (pso_init cfgC7 irC7) erC7 p v = 1 := by
  intro p v
  have hmoved : psoPosMoved cfgC7 (pso_init cfgC7 irC7) erC7 p v = 1 := by
    have hiv : cfgC7.intVar v = true := rfl
    rw [psoPosMoved, if_pos hiv]
    simp only [ce7_init_pos, ce7_velnew]
    have := nround_eq (1 + 0 : ℝ) 1 (by norm_num) (by norm_num)
    simpa using this
  have hclip : psoPosClipped cfgC7 (pso_init cfgC7 irC7) erC7 p v = 6 / 5 := by
    rw [psoPosClipped, hmoved, ce7_effLB, ce7_effUB]
    rw [max_eq_right (by norm_num), min_eq_left (by norm_num)]
  have hiv : cfgC7.intVar v = true := rfl
  rw [psoPosNew, if_pos hiv, hclip, ce7_effLB, ce7_effUB]
  have hceil : ⌈(6 / 5 : ℝ)⌉ = 2 := by
    rw [Int.ceil_eq_iff] <;> norm_num
  have hfloor : ⌊(9 / 5 : ℝ)⌋ = 1 := by
    rw [Int.floor_eq_iff] <;> norm_num
  rw [hceil, hfloor]
  rw [max_eq_right (by norm_num), min_eq_right (by norm_num)]
  norm_num

/-- C7 counterexample: with bounds `[1.2, 1.8]` on a variable declared
integer, after one full epoch (from the initialization, with an explicit
realisation of every random draw) the particle position is 1, strictly
below `LB` — outside `[LB, UB]`. -/
theorem C7_counterexample_int_reclip :
    (pso_run cfgC7 irC7 (fun _ => erC7) 1).agent_pos 0 0 < cfgC7.LB 0 := by
  have h : (pso_run cfgC7 irC7 (fun _ => erC7) 1).agent_pos 0 0 =
      psoPosNew cfgC7 (pso_init cfgC7 irC7) erC7 0 0 := rfl
  rw [h, ce7_posnew]
  show (1 : ℝ) < 6 / 5
  norm_num

/-! C6 (corrected): there is no bounds validation at construction -/

/-- C6 (amended): the optimizer performs no bounds check. Even when
`LB[v] > UB[v]`, `pso_init` proceeds: it samples the particle's position
from the inverted interval (so the position lies between `UB[v]` and
`LB[v]`) and evaluates the objective on the initialized positions — it does
not fail. (Stated for a non-normalized, non-integer dimension, matching the
plain construction path.) -/
theorem C6_no_bounds_check {nP nV : ℕ} (cfg : PSOConfig nP nV)
    (r : InitRand nP nV) (p : Fin (nP + 1)) (v : Fin nV)
    (hnorm : cfg.normalize = false) (hiv : cfg.intVar v = false)
    (hinv : cfg.UB v < cfg.LB v)
    (h0 : 0 ≤ r.posr p v) (h1 : r.posr p v ≤ 1) :
    cfg.UB v ≤ (pso_init cfg r).agent_pos p v ∧
    (pso_init cfg r).agent_pos p v ≤ cfg.LB v ∧
    (pso_init cfg r).agent_best_cost p =
      cfg.func (evalPos cfg ((pso_init cfg r).agent_pos)) p := by
  have hLB : effLB cfg v = cfg.LB v := by
    rw [effLB, hnorm]
    simp
  have hUB : effUB cfg v = cfg.UB v := by
    rw [effUB, hnorm]
    simp
  have hpos : (pso_init cfg r).agent_pos p v =
      effLB cfg v + r.posr p v * (effUB cfg v - effLB cfg v) := by
    show (if cfg.intVar v = true then
      nround (effLB cfg v + r.posr p v * (effUB cfg v - effLB cfg v))
    else effLB cfg v + r.posr p v * (effUB cfg v - effLB cfg v)) = _
    rw [if_neg]
    rw [hiv]
    simp
  refine ⟨?_, ?_, rfl⟩
  · rw [hpos, hLB, hUB]
    nlinarith [mul_nonneg (sub_nonneg.mpr h1) (sub_nonneg.mpr (le_of_lt hinv))]
  · rw [hpos, hLB, hUB]
    nlinarith [mul_nonneg h0 (sub_nonneg.mpr (le_of_lt hinv))]

/-- The inverted-bounds configuration `LB = 1 > UB = 0`, objective
constantly 37. -/
noncomputable def cfgC6 : PSOConfig 0 1 :=
  { func := fun _ _ => 37
    LB := fun _ => 1
    UB := fun _ => 0
    K := 0
    phi := 41 / 20
    vel_fact := 1 / 2
    conf_type := ConfType.RB
    intVar := fun _ => false
    normalize := false }

def irC6 : InitRand 0 1 :=
  { posr := fun _ _ => 0
    velr := fun _ _ => 0
    infr := fun _ _ => 0 }

/-- C6 counterexample: with `LB[0] = 1 > 0 = UB[0]` the optimizer does not
fail at construction: initialization completes (the particle is placed at
`LB[0] = 1`) and the objective is evaluated on it (cost 37). -/
theorem C6_counterexample_no_failure :
    cfgC6.UB 0 < cfgC6.LB 0 ∧
    (pso_init cfgC6 irC6).agent_pos 0 0 = 1 ∧
    (pso_init cfgC6 irC6).agent_best_cost 0 = 37 := by
  refine ⟨by norm_num [cfgC6], ?_, rfl⟩
  have hpos : (pso_init cfgC6 irC6).agent_pos 0 0 =
      effLB cfgC6 0 + irC6.posr 0 0 * (effUB cfgC6 0 - effLB cfgC6 0) := by
    show (if cfgC6.intVar 0 = true then
      nround (effLB cfgC6 0 + irC6.posr 0 0 * (effUB cfgC6 0 - effLB cfgC6 0))
    else effLB cfgC6 0 + irC6.posr 0 0 * (effUB cfgC6 0 - effLB cfgC6 0)) = _
    rw [if_neg]
    simp [cfgC6]
  rw [hpos]
  simp [effLB, effUB, cfgC6, irC6]

/-- Witness for C6 (amended) at the inverted-bounds configuration. -/
theorem C6_no_bounds_check_witness :
    cfgC6.normalize = false ∧ cfgC6.intVar 0 = false ∧
    cfgC6.UB 0 < cfgC6.LB 0 ∧ 0 ≤ irC6.posr 0 0 ∧ irC6.posr 0 0 ≤ 1 ∧
    (cfgC6.UB 0 ≤ (pso_init cfgC6 irC6).agent_pos 0 0 ∧
      (pso_init cfgC6 irC6).agent_pos 0 0 ≤ cfgC6.LB 0 ∧
      (pso_init cfgC6 irC6).agent_best_cost 0 =
        cfgC6.func (evalPos cfgC6 ((pso_init cfgC6 irC6).agent_pos)) 0) := by
  refine ⟨rfl, rfl, by norm_num [cfgC6], le_refl 0, by norm_num [irC6], ?_⟩
  exact C6_no_bounds_check cfgC6 irC6 0 0 rfl rfl (by norm_num [cfgC6])
    (le_refl 0) (by norm_num [irC6])

/-! C5 (corrected): `build_param` performs no explicit length check -/

/-- C5 counterexample: a parameter vector LONGER than `n_var` (here 6
entries against `n_var = 5` for `n_mf = [1]`, one output) is accepted by
`build_param` — the extra entries are silently ignored, no failure occurs
although `len(theta) != n_var`. -/
theorem C5_counterexample_long_theta :
    ([0, 0, 0, 0, 0, 0] : List ℝ).length ≠ n_var [1] 1 ∧
    (build_param [1] 1 [0, 0, 0, 0, 0, 0]).isSome = true := by
  constructor
  · intro h
    simp [n_var, n_pf, n_cf] at h
  · rfl

/-- C5 (amended): `build_param` has no fail-fast length validation. It
succeeds exactly when `len(theta) ≥ n_var` (extra entries beyond `n_var`
are ignored); a shorter `theta` fails only through the consequent-block
reshape (after the premise slices were already taken, silently truncated),
and on success the slices sit at the fixed offsets `0`, `n_pf`, `2·n_pf`,
`3·n_pf`. (The hypothesis rules out the degenerate layout with an empty
consequent block.) -/
theorem C5_no_length_check (n_mf : List ℕ) (n_outputs : ℕ) (theta : List ℝ)
    (hpos : 0 < (n_mf.length + 1) * (n_cf n_mf * n_outputs)) :
    ((build_param n_mf n_outputs theta).isSome ↔
      n_var n_mf n_outputs ≤ theta.length) ∧
    ∀ p, build_param n_mf n_outputs theta = some p →
      p.mu = theta.take (n_pf n_mf) ∧
      p.s = (theta.drop (n_pf n_mf)).take (n_pf n_mf) ∧
      p.c = (theta.drop (2 * n_pf n_mf)).take (n_pf n_mf) ∧
      p.Aflat = (theta.drop (3 * n_pf n_mf)).take
        (n_var n_mf n_outputs - 3 * n_pf n_mf) := by
  have hvar : n_var n_mf n_outputs =
      3 * n_pf n_mf + (n_mf.length + 1) * (n_cf n_mf * n_outputs) := by
    rw [n_var]
    ring
  have hcond : (((theta.drop (3 * n_pf n_mf)).take
      (n_var n_mf n_outputs - 3 * n_pf n_mf)).length =
      (n_mf.length + 1) * (n_cf n_mf * n_outputs)) ↔
      n_var n_mf n_outputs ≤ theta.length := by
    rw [List.length_take, List.length_drop]
    omega
  constructor
  · simp only [build_param]
    split
    case isTrue h => simpa using hcond.mp h
    case isFalse h => simpa using (not_iff_not.mpr hcond).mp h
  · intro p hp
    simp only [build_param] at hp
    split at hp
    case isTrue h =>
        have := Option.some.inj hp
        subst this
        exact ⟨rfl, rfl, by rw [two_mul], rfl⟩
    case isFalse h => exact absurd hp (by simp)

/-- Witness for C5 (amended) at `n_mf = [1]`, one output,
`theta = [0, 0, 0, 0, 0]` (length exactly `n_var = 5`). -/
theorem C5_no_length_check_witness :
    0 < ([1].length + 1) * (n_cf [1] * 1) ∧
    (((build_param [1] 1 [0, 0, 0, 0, 0]).isSome ↔
      n_var [1] 1 ≤ ([0, 0, 0, 0, 0] : List ℝ).length) ∧
    ∀ p, build_param [1] 1 [0, 0, 0, 0, 0] = some p →
      p.mu = ([0, 0, 0, 0, 0] : List ℝ).take (n_pf [1]) ∧
      p.s = (([0, 0, 0, 0, 0] : List ℝ).drop (n_pf [1])).take (n_pf [1]) ∧
      p.c = (([0, 0, 0, 0, 0] : List ℝ).drop (2 * n_pf [1])).take (n_pf [1]) ∧
      p.Aflat = (([0, 0, 0, 0, 0] : List ℝ).drop (3 * n_pf [1])).take
        (n_var [1] 1 - 3 * n_pf [1])) := by
  refine ⟨by norm_num [n_cf], ?_⟩
  exact C5_no_length_check [1] 1 [0, 0, 0, 0, 0] (by norm_num [n_cf])

/-! C3 (corrected): the categorical cost divides by `n_samples`,
not by the full entry count of the error matrix -/

/-- C3 (amended): the categorical cost returned by `create_model` equals
the SUM of the error matrix `(1 - Yout)·f - logsig(f)` divided by the
number of samples alone — that is, `n_classes` times the matrix mean the
spec states (they agree only when there is a single class). -/
theorem C3_cost_is_nclasses_times_mean (n_mf : List ℕ) (n_outputs : ℕ)
    (theta : List ℝ) (X : List (List ℝ)) (Y : List ℚ) :
    create_model_C n_mf n_outputs theta X Y =
      Option.map (fun m => m * ((uniqueSorted Y).length : ℝ))
        (create_model_C_mean_spec n_mf n_outputs theta X Y) := by
  rw [create_model_C, create_model_C_mean_spec]
  cases build_param n_mf n_outputs theta with
  | none => rfl
  | some p =>
      simp only [Option.map_some']
      congr 1
      dsimp only
      by_cases hk : ((uniqueSorted Y).length : ℝ) = 0
      · have hk0 : (uniqueSorted Y).length = 0 := by exact_mod_cast hk
        rw [hk0]
        simp
      · have key : ∀ (S n k : ℝ), k ≠ 0 → S / n = S / (n * k) * k := by
          intro S n k hk0
          rw [eq_comm, div_mul_eq_mul_div, mul_comm n k, ← div_div,
            mul_div_cancel_right₀ _ hk0]
        exact key _ _ _ hk

def thetaC3 : List ℝ := [0, 1, 1, 0, 0, 0, 0]

def paramsC3 : ANFISParams := ⟨[0], [1], [1], [0, 0, 0, 0]⟩

def XC3 : List (List ℝ) := [[0], [0]]

def YC3 : List ℚ := [0, 1]

theorem c3_bp : build_param [1] 2 thetaC3 = some paramsC3 := rfl

theorem getD_quad_zero : ∀ n : ℕ, ([0, 0, 0, 0] : List ℝ).getD n 0 = 0 := by
  intro n
  match n with
  | 0 => rfl
  | 1 => rfl
  | 2 => rfl
  | 3 => rfl
  | n + 4 =>
      apply List.getD_eq_default
      simp

theorem c3_W : fire_W [1] paramsC3 [0] = [1] := by
  simp [fire_W, build_combs, mf_ranges, prodLists, premise_pf, premise_d,
    paramsC3, List.range', Real.rpow_one]

theorem c3_Wr : fire_Wr [1] paramsC3 [0] = [1] := by
  simp [fire_Wr, c3_W]

theorem c3_f : ∀ j : ℕ, forward_one [1] 2 paramsC3 [0] j = 0 := by
  intro j
  have hxe : expand_input [1] [0] = [0] := rfl
  have hr1 : List.range (n_cf [1]) = [0] := rfl
  have hr2 : List.range (List.length [1] + 1) = [0, 1] := rfl
  have hA : paramsC3.Aflat = [0, 0, 0, 0] := rfl
  rw [forward_one]
  simp only [hxe, hr1, hr2, c3_Wr, List.map_cons, List.map_nil, List.sum_cons,
    List.sum_nil, Aval, hA, List.getD_cons_zero, List.getD_cons_succ,
    getD_quad_zero]
  norm_num

theorem c3_logsig0 : logsig 0 = -Real.log 2 := by
  rw [logsig, if_neg (by norm_num), if_neg (by norm_num), if_pos (by norm_num)]
  norm_num [Real.exp_zero]

theorem c3_Yu : uniqueSorted YC3 = [0, 1] := rfl

theorem c3_code_cost :
    create_model_C [1] 2 thetaC3 XC3 YC3 = some (4 * Real.log 2 / 2) := by
  rw [create_model_C, c3_bp]
  simp only [Option.map_some']
  congr 1
  have hX : XC3.length = 2 := rfl
  have hncl : (uniqueSorted YC3).length = 2 := rfl
  have hr2 : List.range 2 = [0, 1] := rfl
  rw [hX, hncl, hr2]
  simp only [List.map_cons, List.map_nil, List.sum_cons, List.sum_nil]
  have hX0 : XC3.getD 0 [] = [0] := rfl
  have hX1 : XC3.getD 1 [] = [0] := rfl
  rw [hX0, hX1]
  simp only [c3_f, c3_logsig0]
  ring

theorem c3_spec_cost :
    create_model_C_mean_spec [1] 2 thetaC3 XC3 YC3 =
      some (4 * Real.log 2 / (2 * 2)) := by
  rw [create_model_C_mean_spec, c3_bp]
  simp only [Option.map_some']
  congr 1
  have hX : XC3.length = 2 := rfl
  have hncl : (uniqueSorted YC3).length = 2 := rfl
  have hr2 : List.range 2 = [0, 1] := rfl
  rw [hX, hncl, hr2]
  simp only [List.map_cons, List.map_nil, List.sum_cons, List.sum_nil]
  have hX0 : XC3.getD 0 [] = [0] := rfl
  have hX1 : XC3.getD 1 [] = [0] := rfl
  rw [hX0, hX1]
  simp only [c3_f, c3_logsig0]
  push_cast
  ring

/-- C3 counterexample: at `n_mf = [1]`, two classes, two samples
`X = [[0], [0]]`, `Y = [0, 1]` and `theta = [0,1,1,0,0,0,0]` the code's
cost is `2·log 2` while the mean of the error matrix is `log 2`: the cost
is NOT the matrix mean. -/
theorem C3_counterexample_mean_divisor :
    create_model_C [1] 2 thetaC3 XC3 YC3 ≠
      create_model_C_mean_spec [1] 2 thetaC3 XC3 YC3 := by
  rw [c3_code_cost, c3_spec_cost]
  intro h
  have h2 := Option.some.inj h
  have hlog : 0 < Real.log 2 := Real.log_pos (by norm_num)
  norm_num at h2
  nlinarith [h2, hlog]
